import Mathlib

/-!
Verification of the waveform-analysis engine
(src/python/new_analysis/waveform_analysis.py).

The Python class WaveformAnalysis is embedded shallowly:

* raw digitizer samples are modelled as rationals (the scripts feed integer
  counts; numpy float arithmetic is idealised as exact rational arithmetic);
* a waveform is a List ℚ, a batch a List (List ℚ);
* every vectorised numpy expression is translated row-wise into a pure
  function of one waveform;
* the mutable, lazily populated object state (self.amplitudes,
  self.peak_locations, ...) is modelled explicitly as a state record with
  Option fields, with one state-transformer per method, for the claims about
  stage ordering and determinism;
* numpy.std is the square root of the population variance; the variance is a
  rational, and the standard deviation itself is modelled as Real.sqrt of it.
  Comparisons against 3*sigma are computed with the equivalent rational test
  (x < 3*sqrt v  ↔  x < 0 ∨ x^2 < 9*v, for v ≥ 0), proved equivalent below.
-/

namespace WaveformAnalysis

/-- Class constant peak_rise_time_fraction = 0.4. -/
def peak_rise_time_fraction : ℚ := 2/5

/-- Class constant impedance = 50. -/
def impedance : ℚ := 50

/-- The constructor arguments of WaveformAnalysis (everything except the
waveform batch itself).  Windows are (startNs, endNs) pairs of naturals,
as in the scripts; defaults are the Python defaults,
with voltage_scale 0.000610351 as an exact rational. -/
structure AnalysisConfig where
  threshold : ℚ := 1/100
  analysis_window : ℕ × ℕ := (0, 200)
  pedestal_window : ℕ × ℕ := (200, 420)
  reverse_polarity : Bool := true
  ns_per_sample : ℕ := 2
  voltage_scale : ℚ := 610351/1000000000
  time_offset : ℚ := 0
deriving Repr, DecidableEq

/-- First analysis bin: analysis_window[0] // ns_per_sample. -/
def analysisStart (cfg : AnalysisConfig) : ℕ :=
  cfg.analysis_window.1 / cfg.ns_per_sample

/-- One-past-the-last analysis bin: analysis_window[1] // ns_per_sample. -/
def analysisEnd (cfg : AnalysisConfig) : ℕ :=
  cfg.analysis_window.2 / cfg.ns_per_sample

/-- Number of analysis bins, len(range(analysisStart, analysisEnd)). -/
def analysisLen (cfg : AnalysisConfig) : ℕ := analysisEnd cfg - analysisStart cfg

/-- First pedestal bin: pedestal_window[0] // ns_per_sample. -/
def pedestalStart (cfg : AnalysisConfig) : ℕ :=
  cfg.pedestal_window.1 / cfg.ns_per_sample

/-- One-past-the-last pedestal bin: pedestal_window[1] // ns_per_sample. -/
def pedestalEnd (cfg : AnalysisConfig) : ℕ :=
  cfg.pedestal_window.2 / cfg.ns_per_sample

/-- Number of pedestal bins. -/
def pedestalLen (cfg : AnalysisConfig) : ℕ := pedestalEnd cfg - pedestalStart cfg

/-! ### Pedestal stage (find_pedestals), per waveform -/

/-- self.waveforms * self.voltage_scale, one row. -/
def rawAmplitudes (cfg : AnalysisConfig) (w : List ℚ) : List ℚ :=
  w.map (fun x => x * cfg.voltage_scale)

/-- The slice amplitudes[pedestal_bins] of one waveform
(out-of-range indices read as 0; the scripts only use in-range windows). -/
def pedSlice (cfg : AnalysisConfig) (w : List ℚ) : List ℚ :=
  (List.range (pedestalLen cfg)).map
    (fun k => (rawAmplitudes cfg w).getD (pedestalStart cfg + k) 0)

/-- np.mean over the pedestal bins. -/
def pedestal (cfg : AnalysisConfig) (w : List ℚ) : ℚ :=
  (pedSlice cfg w).sum / (pedestalLen cfg : ℚ)

/-- The population variance over the pedestal bins; np.std squared. -/
def pedestal_sigma_sq (cfg : AnalysisConfig) (w : List ℚ) : ℚ :=
  ((pedSlice cfg w).map (fun x => (x - pedestal cfg w)^2)).sum / (pedestalLen cfg : ℚ)

/- np.std over the pedestal bins is the square root of the population
variance; it appears in statements as Real.sqrt (pedestal_sigma_sq cfg w),
through the Prop-valued predicate below_threshold defined with the charge
stage. -/

/-- The corrected amplitude row after find_pedestals: scale, subtract the
pedestal, and negate if reverse_polarity. -/
def amplitudes (cfg : AnalysisConfig) (w : List ℚ) : List ℚ :=
  let a := (rawAmplitudes cfg w).map (fun x => x - pedestal cfg w)
  if cfg.reverse_polarity then a.map (fun x => -x) else a

/-- Corrected amplitude of sample i (0 outside the waveform). -/
def ampAt (cfg : AnalysisConfig) (w : List ℚ) (i : ℕ) : ℚ :=
  (amplitudes cfg w).getD i 0

/-! ### Peak stage (find_peaks), per corrected-amplitude row

These take the corrected amplitude row directly, because the Python methods
read self.amplitudes; the per-waveform wrappers compose them with
`amplitudes`. -/

/-- The slice amplitudes[analysis_bins] of one corrected row. -/
def windowSliceOf (cfg : AnalysisConfig) (amp : List ℚ) : List ℚ :=
  (List.range (analysisLen cfg)).map (fun k => amp.getD (analysisStart cfg + k) 0)

/-- Maximum of a list (0 for the empty list, never used there). -/
def listMax : List ℚ → ℚ
  | [] => 0
  | [x] => x
  | x :: y :: ys => max x (listMax (y :: ys))

/-- np.argmax: index of the maximum, ties broken by first occurrence
(0 on the empty list, never used there). -/
def argmaxIdx : List ℚ → ℕ
  | [] => 0
  | [_] => 0
  | x :: y :: ys => if listMax (y :: ys) ≤ x then 0 else argmaxIdx (y :: ys) + 1

/-- self.peak_locations for one row: argmax over the analysis slice. -/
def peakLocOf (cfg : AnalysisConfig) (amp : List ℚ) : ℕ :=
  argmaxIdx (windowSliceOf cfg amp)

/-- self.peak_voltages for one row: the analysis-slice value at the peak
location (np.take_along_axis on the slice). -/
def peakVoltOf (cfg : AnalysisConfig) (amp : List ℚ) : ℚ :=
  (windowSliceOf cfg amp).getD (peakLocOf cfg amp) 0

/-- self.peak_times for one row:
analysis_window[0] + (peak_location + 0.5) * ns_per_sample. -/
def peakTimeOf (cfg : AnalysisConfig) (l : ℕ) : ℚ :=
  (cfg.analysis_window.1 : ℚ) + ((l : ℚ) + 1/2) * (cfg.ns_per_sample : ℚ)

/-! ### Per-waveform wrappers for the peak stage -/

/-- Peak location (index into the analysis slice) of one waveform. -/
def peak_location (cfg : AnalysisConfig) (w : List ℚ) : ℕ :=
  peakLocOf cfg (amplitudes cfg w)

/-- Peak voltage of one waveform. -/
def peak_voltage (cfg : AnalysisConfig) (w : List ℚ) : ℚ :=
  peakVoltOf cfg (amplitudes cfg w)

/-- Peak time in ns of one waveform. -/
def peak_time (cfg : AnalysisConfig) (w : List ℚ) : ℚ :=
  peakTimeOf cfg (peak_location cfg w)

/-- Peak index relative to the full waveform:
peak_location + analysis_bins[0]. -/
def peakFullIdx (cfg : AnalysisConfig) (w : List ℚ) : ℕ :=
  analysisStart cfg + peak_location cfg w

/-! ### Timing stage (calculate_signal_times), per waveform row

The Python loop, for one (peak, loc, amp) triple:
  if loc == 0: 0
  else: loc += analysis_bins[0]; threshold = 0.4*peak;
        i = loc - np.argmax(amp[loc-1::-1] < threshold);
        np.interp(threshold, amp[i-1:i+1],
                  [analysis_window[0]+(i-1), analysis_window[0]+i])
followed by the vectorised * ns_per_sample + time_offset. -/

/-- First index k in [s, s+n) with p k, as an Option, scanning upward. -/
def firstTrue (p : ℕ → Bool) : ℕ → ℕ → Option ℕ
  | 0, _ => none
  | n+1, s => if p s then some s else firstTrue p n (s+1)

/-- np.argmax over the boolean array [p 0, p 1, ..., p (n-1)]: the first
index where p holds, and 0 when p holds nowhere (numpy returns the first
index of the maximal value, and the maximum of an all-False array is False
at index 0). -/
def npArgmaxB (p : ℕ → Bool) (n : ℕ) : ℕ :=
  (firstTrue p n 0).getD 0

/-- np.interp with the two sample points (a0, t0), (a1, t1): clamps x
below a0 to t0 and at or above a1 to t1, and interpolates linearly in
between (for a sorted pair a0 < a1 this is exactly numpy's behaviour,
including x = a0 and x = a1). -/
def interp (x a0 a1 t0 t1 : ℚ) : ℚ :=
  if x < a0 then t0
  else if a1 ≤ x then t1
  else t0 + (x - a0) * (t1 - t0) / (a1 - a0)

/-- The loop body of calculate_signal_times before the final
* ns_per_sample + time_offset: peak voltage pk, analysis-relative peak
location relLoc, corrected amplitude row amp. -/
def signalRawOf (cfg : AnalysisConfig) (pk : ℚ) (relLoc : ℕ) (amp : List ℚ) : ℚ :=
  if relLoc = 0 then 0
  else
    let loc := analysisStart cfg + relLoc
    let th := peak_rise_time_fraction * pk
    let j := npArgmaxB (fun k => decide (amp.getD (loc - 1 - k) 0 < th)) loc
    let i := loc - j
    interp th (amp.getD (i-1) 0) (amp.getD i 0)
      ((cfg.analysis_window.1 : ℚ) + ((i-1 : ℕ) : ℚ))
      ((cfg.analysis_window.1 : ℚ) + (i : ℚ))

/-- One entry of self.signal_times:
loop body * ns_per_sample + time_offset. -/
def signalTimeOf (cfg : AnalysisConfig) (pk : ℚ) (relLoc : ℕ) (amp : List ℚ) : ℚ :=
  signalRawOf cfg pk relLoc amp * (cfg.ns_per_sample : ℚ) + cfg.time_offset

/-- Signal time of one waveform, computed through the fresh pipeline. -/
def signal_time (cfg : AnalysisConfig) (w : List ℚ) : ℚ :=
  signalTimeOf cfg (peak_voltage cfg w) (peak_location cfg w) (amplitudes cfg w)

/-! ### Charge stage (integrate_charges), per row

The Python, row-wise:
  below_threshold = amplitudes < 3*pedestal_sigmas
  peak_index      = peak_location + analysis_bins[0]
  before_peak_fall[i] = cumsum((indices > peak_index) & below)[i] == 0
  after_peak_rise[i]  = reversed-cumsum((indices < peak_index) & below)[i] == 0
  charge = sum(amplitudes * (before & after)) * ns_per_sample / impedance

The comparison against 3*sigma (sigma = sqrt of the rational variance v) is
computed with the equivalent rational test x < 0 ∨ x^2 < 9*v; the lemma
belowOf_iff below proves it equal to the real comparison. -/

/-- Row-level below-threshold mask, rational form: amp[i] < 3*sqrt v,
decided as amp[i] < 0 ∨ amp[i]^2 < 9*v (equivalent for v ≥ 0, and the
variance is always ≥ 0). -/
def belowOf (amp : List ℚ) (v : ℚ) (i : ℕ) : Bool :=
  decide (amp.getD i 0 < 0) || decide ((amp.getD i 0)^2 < 9 * v)

/-- before_peak_fall[i]: no index j with peakIdx < j ≤ i is below threshold
(the cumulative sum of the masked bits up to i is zero). -/
def beforePeakFall (amp : List ℚ) (v : ℚ) (pkIdx i : ℕ) : Bool :=
  ((List.range (i+1)).countP (fun j => decide (pkIdx < j) && belowOf amp v j)) == 0

/-- after_peak_rise[i]: no index j with i ≤ j < peakIdx is below threshold
(the reversed cumulative sum from the right down to i is zero). -/
def afterPeakRise (amp : List ℚ) (v : ℚ) (pkIdx i : ℕ) : Bool :=
  ((List.range' i (amp.length - i)).countP
    (fun j => decide (j < pkIdx) && belowOf amp v j)) == 0

/-- The integration mask before & after for index i. -/
def regionOf (amp : List ℚ) (v : ℚ) (pkIdx i : ℕ) : Bool :=
  beforePeakFall amp v pkIdx i && afterPeakRise amp v pkIdx i

/-- One entry of self.integrated_charges: masked sum of the row, times
ns_per_sample / impedance. -/
def chargeOf (cfg : AnalysisConfig) (amp : List ℚ) (relLoc : ℕ) (v : ℚ) : ℚ :=
  let pkIdx := relLoc + analysisStart cfg
  (((List.range amp.length).map
      (fun i => if regionOf amp v pkIdx i then amp.getD i 0 else 0)).sum)
    * (cfg.ns_per_sample : ℚ) / impedance

/-- Integrated charge of one waveform, computed through the fresh pipeline. -/
def integrated_charge (cfg : AnalysisConfig) (w : List ℚ) : ℚ :=
  chargeOf cfg (amplitudes cfg w) (peak_location cfg w) (pedestal_sigma_sq cfg w)

/-- The below-threshold predicate of the spec, with the genuine standard
deviation: amplitude[i] < 3 * pedestalSigma, over the reals. -/
def below_threshold (cfg : AnalysisConfig) (w : List ℚ) (i : ℕ) : Prop :=
  ((ampAt cfg w i : ℚ) : ℝ) < 3 * Real.sqrt (pedestal_sigma_sq cfg w)

/-- is_over_threshold for one waveform: peak_voltage > threshold. -/
def is_over_threshold (cfg : AnalysisConfig) (w : List ℚ) : Bool :=
  decide (peak_voltage cfg w > cfg.threshold)

/-! ### The mutable object, as an explicit state record

The Python instance initialises peak_locations and amplitudes to None and
populates the remaining attributes as the stages run; each method is a state
transformer.  Attributes that do not exist yet are modelled as none, and
stage bodies read them with getD (the public methods guarantee they are
populated before use, exactly as in Python). -/

structure AnalysisState where
  cfg : AnalysisConfig
  waveforms : List (List ℚ)
  amplitudes : Option (List (List ℚ)) := none
  pedestals : Option (List ℚ) := none
  pedestal_sigma_sqs : Option (List ℚ) := none
  peak_locations : Option (List ℕ) := none
  peak_times : Option (List ℚ) := none
  peak_voltages : Option (List ℚ) := none
  signal_times : Option (List ℚ) := none
  integrated_charges : Option (List ℚ) := none
  over_threshold : Option (List Bool) := none
deriving DecidableEq

/-- The freshly constructed object: __init__. -/
def initState (cfg : AnalysisConfig) (ws : List (List ℚ)) : AnalysisState :=
  { cfg := cfg, waveforms := ws }

/-- Method find_pedestals: recomputes amplitudes from the stored waveforms,
stores pedestals and sigmas, subtracts and flips polarity. -/
def findPedestalsS (s : AnalysisState) : AnalysisState :=
  { s with
    amplitudes := some (s.waveforms.map (amplitudes s.cfg)),
    pedestals := some (s.waveforms.map (pedestal s.cfg)),
    pedestal_sigma_sqs := some (s.waveforms.map (pedestal_sigma_sq s.cfg)) }

/-- Method find_peaks: runs find_pedestals first when amplitudes is None,
then computes peak locations, times and voltages from self.amplitudes. -/
def findPeaksS (s : AnalysisState) : AnalysisState :=
  let s := match s.amplitudes with
    | none => findPedestalsS s
    | some _ => s
  let A := s.amplitudes.getD []
  { s with
    peak_locations := some (A.map (peakLocOf s.cfg)),
    peak_times := some (A.map (fun amp => peakTimeOf s.cfg (peakLocOf s.cfg amp))),
    peak_voltages := some (A.map (peakVoltOf s.cfg)) }

/-- Method calculate_signal_times: runs find_peaks first when
peak_locations is None, then maps the loop body over the zipped
(peak_voltages, peak_locations, amplitudes) and applies
* ns_per_sample + time_offset. -/
def calculateSignalTimesS (s : AnalysisState) : AnalysisState :=
  let s := match s.peak_locations with
    | none => findPeaksS s
    | some _ => s
  let A := s.amplitudes.getD []
  let P := s.peak_voltages.getD []
  let L := s.peak_locations.getD []
  { s with
    signal_times :=
      some ((P.zip (L.zip A)).map (fun q => signalTimeOf s.cfg q.1 q.2.1 q.2.2)) }

/-- Method integrate_charges: runs find_peaks first when peak_locations is
None, then maps the masked sum over the zipped rows. -/
def integrateChargesS (s : AnalysisState) : AnalysisState :=
  let s := match s.peak_locations with
    | none => findPeaksS s
    | some _ => s
  let A := s.amplitudes.getD []
  let L := s.peak_locations.getD []
  let V := s.pedestal_sigma_sqs.getD []
  { s with
    integrated_charges :=
      some ((A.zip (L.zip V)).map (fun q => chargeOf s.cfg q.1 q.2.1 q.2.2)) }

/-- Method run_analysis: find_peaks; calculate_signal_times;
integrate_charges; is_over_threshold = peak_voltages > threshold. -/
def runAnalysisS (s : AnalysisState) : AnalysisState :=
  let s1 := findPeaksS s
  let s2 := calculateSignalTimesS s1
  let s3 := integrateChargesS s2
  { s3 with
    over_threshold :=
      some ((s3.peak_voltages.getD []).map (fun v => decide (v > s3.cfg.threshold))) }

/-! ### Helper lemmas -/

theorem getD_range_map (f : ℕ → ℚ) {i n : ℕ} (h : i < n) :
    ((List.range n).map f).getD i 0 = f i := by
  simp [List.getD_eq_getElem?_getD, List.getElem?_map, List.getElem?_range, h]

theorem le_listMax (l : List ℚ) : ∀ x ∈ l, x ≤ listMax l := by
  induction l with
  | nil => simp
  | cons a t ih =>
    cases t with
    | nil => simp [listMax]
    | cons b u =>
      intro x hx
      rcases List.mem_cons.mp hx with rfl | hx
      · simp [listMax]
      · simp only [listMax, le_max_iff]
        exact Or.inr (ih x hx)

theorem argmaxIdx_lt_length (l : List ℚ) (h : l ≠ []) : argmaxIdx l < l.length := by
  induction l with
  | nil => simp at h
  | cons a t ih =>
    cases t with
    | nil => simp [argmaxIdx]
    | cons b u =>
      by_cases hc : listMax (b :: u) ≤ a
      · simp [argmaxIdx, hc]
      · have h1 : argmaxIdx (b :: u) < (b :: u).length := ih (by simp)
        simp only [argmaxIdx, if_neg hc, List.length_cons]
        simp only [List.length_cons] at h1
        omega

theorem getD_argmaxIdx (l : List ℚ) (h : l ≠ []) :
    l.getD (argmaxIdx l) 0 = listMax l := by
  induction l with
  | nil => simp at h
  | cons a t ih =>
    cases t with
    | nil => simp [argmaxIdx, listMax]
    | cons b u =>
      by_cases hc : listMax (b :: u) ≤ a
      · simp [argmaxIdx, hc, listMax, max_eq_left hc]
      · have h1 : argmaxIdx (a :: b :: u) = argmaxIdx (b :: u) + 1 := by
          simp [argmaxIdx, hc]
        rw [h1, List.getD_cons_succ, ih (by simp)]
        show listMax (b :: u) = listMax (a :: b :: u)
        show listMax (b :: u) = max a (listMax (b :: u))
        exact (max_eq_right (le_of_lt (not_le.mp hc))).symm

theorem getD_lt_of_lt_argmaxIdx (l : List ℚ) {j : ℕ} (h : j < argmaxIdx l) :
    l.getD j 0 < listMax l := by
  induction l generalizing j with
  | nil => simp [argmaxIdx] at h
  | cons a t ih =>
    cases t with
    | nil => simp [argmaxIdx] at h
    | cons b u =>
      by_cases hc : listMax (b :: u) ≤ a
      · simp [argmaxIdx, hc] at h
      · have h1 : argmaxIdx (a :: b :: u) = argmaxIdx (b :: u) + 1 := by
          simp [argmaxIdx, hc]
        rw [h1] at h
        have hmax : listMax (a :: b :: u) = max a (listMax (b :: u)) := rfl
        cases j with
        | zero =>
          rw [List.getD_cons_zero, hmax, max_eq_right (le_of_lt (not_le.mp hc))]
          exact not_le.mp hc
        | succ j =>
          rw [List.getD_cons_succ, hmax]
          exact lt_max_of_lt_right (ih (Nat.lt_of_succ_lt_succ h))

theorem firstTrue_eq_none (p : ℕ → Bool) :
    ∀ n s : ℕ, (∀ k, s ≤ k → k < s + n → p k = false) → firstTrue p n s = none := by
  intro n
  induction n with
  | zero => intro s _; rfl
  | succ m ih =>
    intro s h
    have hs : p s = false := h s le_rfl (by omega)
    simp only [firstTrue, hs, Bool.false_eq_true, if_false]
    exact ih (s + 1) (fun k h1 h2 => h k (by omega) (by omega))

theorem firstTrue_eq_some (p : ℕ → Bool) :
    ∀ n s k : ℕ, s ≤ k → k < s + n → p k = true →
      (∀ m, s ≤ m → m < k → p m = false) → firstTrue p n s = some k := by
  intro n
  induction n with
  | zero => intro s k h1 h2 _ _; omega
  | succ m ih =>
    intro s k h1 h2 hk hmin
    by_cases hs : s = k
    · subst hs; simp [firstTrue, hk]
    · have hps : p s = false := hmin s le_rfl (by omega)
      simp only [firstTrue, hps, Bool.false_eq_true, if_false]
      exact ih (s + 1) k (by omega) (by omega) hk (fun m hm1 hm2 => hmin m (by omega) hm2)

theorem npArgmaxB_of_all_false {p : ℕ → Bool} {n : ℕ}
    (h : ∀ k, k < n → p k = false) : npArgmaxB p n = 0 := by
  unfold npArgmaxB
  rw [firstTrue_eq_none p n 0 (fun k _ h2 => h k (by omega))]
  rfl

theorem npArgmaxB_of_first {p : ℕ → Bool} {n k : ℕ} (hk : k < n)
    (hp : p k = true) (hmin : ∀ m, m < k → p m = false) : npArgmaxB p n = k := by
  unfold npArgmaxB
  rw [firstTrue_eq_some p n 0 k (by omega) (by omega) hp (fun m _ h2 => hmin m h2)]
  rfl

theorem interp_eq_formula {x a0 a1 t0 t1 : ℚ} (h0 : a0 ≤ x) (h1 : x ≤ a1)
    (hlt : a0 < a1) :
    interp x a0 a1 t0 t1 = t0 + (x - a0) * (t1 - t0) / (a1 - a0) := by
  unfold interp
  rw [if_neg (not_lt.mpr h0)]
  by_cases hc : a1 ≤ x
  · have hx : x = a1 := le_antisymm h1 hc
    have hne : a1 - a0 ≠ 0 := sub_ne_zero.mpr (ne_of_gt hlt)
    rw [if_pos hc, hx, mul_div_cancel_left₀ _ hne]
    ring
  · rw [if_neg hc]

theorem interp_eq_left {x a0 a1 t0 t1 : ℚ} (hx : x ≤ a0) (h : x < a1) :
    interp x a0 a1 t0 t1 = t0 := by
  unfold interp
  by_cases hc : x < a0
  · rw [if_pos hc]
  · have hxa : x = a0 := le_antisymm hx (not_lt.mp hc)
    rw [if_neg hc, if_neg (not_le.mpr h), hxa]
    simp

theorem sum_range_map (f : ℕ → ℚ) (n : ℕ) :
    ((List.range n).map f).sum = ∑ i ∈ Finset.range n, f i := by
  induction n with
  | zero => simp
  | succ m ih =>
    rw [List.range_succ, List.map_append, List.sum_append, Finset.sum_range_succ, ih]
    simp

theorem pedestal_sigma_sq_nonneg (cfg : AnalysisConfig) (w : List ℚ) :
    0 ≤ pedestal_sigma_sq cfg w := by
  unfold pedestal_sigma_sq
  apply div_nonneg
  · apply List.sum_nonneg
    intro x hx
    simp only [List.mem_map] at hx
    obtain ⟨y, -, rfl⟩ := hx
    positivity
  · exact Nat.cast_nonneg _

theorem sqrt_nine_mul (v : ℝ) :
    Real.sqrt (9 * v) = 3 * Real.sqrt v := by
  rw [Real.sqrt_mul (by norm_num : (0:ℝ) ≤ 9) v,
    show (9:ℝ) = 3 ^ 2 by norm_num, Real.sqrt_sq (by norm_num : (0:ℝ) ≤ 3)]

theorem belowOf_iff (amp : List ℚ) {v : ℚ} (hv : 0 ≤ v) (i : ℕ) :
    belowOf amp v i = true ↔
      ((amp.getD i 0 : ℚ) : ℝ) < 3 * Real.sqrt ((v : ℚ) : ℝ) := by
  unfold belowOf
  simp only [Bool.or_eq_true, decide_eq_true_eq]
  have hv' : (0:ℝ) ≤ ((v : ℚ) : ℝ) := by exact_mod_cast hv
  have hs : (0:ℝ) ≤ 3 * Real.sqrt ((v : ℚ) : ℝ) := by positivity
  constructor
  · rintro (hx | hx)
    · have hx' : ((amp.getD i 0 : ℚ) : ℝ) < 0 := by exact_mod_cast hx
      linarith
    · by_cases hx0 : ((amp.getD i 0 : ℚ) : ℝ) < 0
      · linarith
      · push_neg at hx0
        have h9 : ((amp.getD i 0 : ℚ) : ℝ) ^ 2 < 9 * ((v : ℚ) : ℝ) := by
          exact_mod_cast hx
        have := (Real.lt_sqrt hx0).mpr h9
        rwa [sqrt_nine_mul] at this
  · intro h
    by_cases hx0 : amp.getD i 0 < 0
    · exact Or.inl hx0
    · right
      have hx0' : (0:ℝ) ≤ ((amp.getD i 0 : ℚ) : ℝ) := by
        exact_mod_cast not_lt.mp hx0
      rw [← sqrt_nine_mul] at h
      have := (Real.lt_sqrt hx0').mp h
      exact_mod_cast this

/-! ### Peak-stage lemmas -/

theorem windowSliceOf_length (cfg : AnalysisConfig) (amp : List ℚ) :
    (windowSliceOf cfg amp).length = analysisLen cfg := by
  simp [windowSliceOf]

theorem windowSliceOf_getD (cfg : AnalysisConfig) (amp : List ℚ) {k : ℕ}
    (h : k < analysisLen cfg) :
    (windowSliceOf cfg amp).getD k 0 = amp.getD (analysisStart cfg + k) 0 :=
  getD_range_map _ h

theorem windowSliceOf_ne_nil (cfg : AnalysisConfig) (amp : List ℚ)
    (h : 0 < analysisLen cfg) : windowSliceOf cfg amp ≠ [] := by
  intro hnil
  have := congrArg List.length hnil
  rw [windowSliceOf_length] at this
  simp at this
  omega

theorem peakLocOf_lt (cfg : AnalysisConfig) (amp : List ℚ)
    (h : 0 < analysisLen cfg) : peakLocOf cfg amp < analysisLen cfg := by
  have := argmaxIdx_lt_length _ (windowSliceOf_ne_nil cfg amp h)
  rwa [windowSliceOf_length] at this

theorem analysisLen_pos_of_loc_ne_zero (cfg : AnalysisConfig) (amp : List ℚ)
    (h : peakLocOf cfg amp ≠ 0) : 0 < analysisLen cfg := by
  by_contra hc
  have h0 : analysisLen cfg = 0 := by omega
  apply h
  unfold peakLocOf windowSliceOf
  rw [h0]
  rfl

theorem peakVoltOf_eq_listMax (cfg : AnalysisConfig) (amp : List ℚ)
    (h : 0 < analysisLen cfg) :
    peakVoltOf cfg amp = listMax (windowSliceOf cfg amp) :=
  getD_argmaxIdx _ (windowSliceOf_ne_nil cfg amp h)

theorem peakVoltOf_eq_ampAt (cfg : AnalysisConfig) (amp : List ℚ)
    (h : 0 < analysisLen cfg) :
    peakVoltOf cfg amp = amp.getD (analysisStart cfg + peakLocOf cfg amp) 0 :=
  windowSliceOf_getD cfg amp (peakLocOf_lt cfg amp h)

theorem le_peakVoltOf (cfg : AnalysisConfig) (amp : List ℚ)
    (h : 0 < analysisLen cfg) {k : ℕ} (hk : k < analysisLen cfg) :
    amp.getD (analysisStart cfg + k) 0 ≤ peakVoltOf cfg amp := by
  rw [peakVoltOf_eq_listMax cfg amp h, ← windowSliceOf_getD cfg amp hk]
  apply le_listMax
  have hk2 : k < (windowSliceOf cfg amp).length := by
    rwa [windowSliceOf_length]
  rw [List.getD_eq_getElem _ _ hk2]
  exact List.getElem_mem hk2

theorem getD_lt_peakVoltOf_of_lt_loc (cfg : AnalysisConfig) (amp : List ℚ)
    (h : 0 < analysisLen cfg) {k : ℕ} (hk : k < peakLocOf cfg amp) :
    amp.getD (analysisStart cfg + k) 0 < peakVoltOf cfg amp := by
  have hk2 : k < analysisLen cfg := lt_trans hk (peakLocOf_lt cfg amp h)
  rw [peakVoltOf_eq_listMax cfg amp h, ← windowSliceOf_getD cfg amp hk2]
  exact getD_lt_of_lt_argmaxIdx _ hk

/-! ### Timing-stage lemmas: the three regimes of the loop body -/

theorem signalRawOf_peak_at_zero (cfg : AnalysisConfig) (pk : ℚ) (amp : List ℚ) :
    signalRawOf cfg pk 0 amp = 0 := by
  simp [signalRawOf]

/-- The normal regime: some sample strictly below the 0.4*peak threshold
exists before the full-waveform peak index; b is the closest such sample and
the sample after it is at or above the threshold.  The backward argmax finds
b, and np.interp lands in its interior (or right-edge) interpolation branch. -/
theorem signalRawOf_cross (cfg : AnalysisConfig) (pk : ℚ) (amp : List ℚ)
    {relLoc b : ℕ} (hrel : relLoc ≠ 0)
    (hb : b < analysisStart cfg + relLoc)
    (hbel : amp.getD b 0 < peak_rise_time_fraction * pk)
    (hmin : ∀ j, b < j → j < analysisStart cfg + relLoc →
      ¬(amp.getD j 0 < peak_rise_time_fraction * pk))
    (hnext : peak_rise_time_fraction * pk ≤ amp.getD (b+1) 0) :
    signalRawOf cfg pk relLoc amp =
      (cfg.analysis_window.1 : ℚ) + (b : ℚ) +
        (peak_rise_time_fraction * pk - amp.getD b 0) /
          (amp.getD (b+1) 0 - amp.getD b 0) := by
  have hloc1 : 1 ≤ analysisStart cfg + relLoc := by omega
  unfold signalRawOf
  rw [if_neg hrel]
  dsimp only
  have hj : npArgmaxB
      (fun k => decide (amp.getD (analysisStart cfg + relLoc - 1 - k) 0 <
        peak_rise_time_fraction * pk)) (analysisStart cfg + relLoc) =
      analysisStart cfg + relLoc - 1 - b := by
    apply npArgmaxB_of_first
    · omega
    · have he : analysisStart cfg + relLoc - 1 -
          (analysisStart cfg + relLoc - 1 - b) = b := by omega
      rw [he]
      exact decide_eq_true hbel
    · intro m hm
      have h1 : b < analysisStart cfg + relLoc - 1 - m := by omega
      have h2 : analysisStart cfg + relLoc - 1 - m < analysisStart cfg + relLoc := by
        omega
      simp only [decide_eq_false_iff_not]
      exact hmin _ h1 h2
  rw [hj]
  have hi : analysisStart cfg + relLoc - (analysisStart cfg + relLoc - 1 - b) =
      b + 1 := by omega
  rw [hi]
  have h10 : amp.getD b 0 < amp.getD (b+1) 0 := lt_of_lt_of_le hbel hnext
  have hb1 : b + 1 - 1 = b := by omega
  rw [hb1, interp_eq_formula (le_of_lt hbel) hnext h10]
  push_cast
  field_simp

/-- The no-crossing regime: no sample before the peak is strictly below the
threshold, and the threshold is strictly below the amplitude at the peak.
np.argmax over the all-false mask returns 0, so i = loc and np.interp clamps
at its left endpoint analysis_window[0] + (loc - 1). -/
theorem signalRawOf_no_cross (cfg : AnalysisConfig) (pk : ℚ) (amp : List ℚ)
    {relLoc : ℕ} (hrel : relLoc ≠ 0)
    (hall : ∀ j, j < analysisStart cfg + relLoc →
      ¬(amp.getD j 0 < peak_rise_time_fraction * pk))
    (hlt : peak_rise_time_fraction * pk <
      amp.getD (analysisStart cfg + relLoc) 0) :
    signalRawOf cfg pk relLoc amp =
      (cfg.analysis_window.1 : ℚ) + ((analysisStart cfg + relLoc - 1 : ℕ) : ℚ) := by
  unfold signalRawOf
  rw [if_neg hrel]
  dsimp only
  have hj : npArgmaxB
      (fun k => decide (amp.getD (analysisStart cfg + relLoc - 1 - k) 0 <
        peak_rise_time_fraction * pk)) (analysisStart cfg + relLoc) = 0 := by
    apply npArgmaxB_of_all_false
    intro k hk
    simp only [decide_eq_false_iff_not]
    exact hall _ (by omega)
  rw [hj, Nat.sub_zero]
  have hle : peak_rise_time_fraction * pk ≤
      amp.getD (analysisStart cfg + relLoc - 1) 0 := by
    have := hall (analysisStart cfg + relLoc - 1) (by omega)
    exact not_lt.mp this
  exact interp_eq_left hle hlt

/-! ### Claims C1, C2, C3: the timing stage -/

/-- Concrete configuration for claim C1: analysis window starting at 4 ns. -/
def cfgC1 : AnalysisConfig :=
  { threshold := 1/100, analysis_window := (4, 8), pedestal_window := (0, 4),
    reverse_polarity := false, ns_per_sample := 2, voltage_scale := 1,
    time_offset := 0 }

/-- Concrete waveform for claim C1. -/
def wC1 : List ℚ := [0, 0, 1, 10]

/-- Claim C1, counterexample.  For cfgC1/wC1 the peak is at full-waveform
index 3 with voltage 10, the first below-threshold sample scanning backward
is index 2, and the fractional crossing index under linear interpolation is
2 + 1/3 = 7/3; the claim predicts signalTimeNs = (7/3)*2 + 0 = 14/3, but
the code returns 38/3, because it adds analysis_window[0] = 4 (nanoseconds)
to the fractional sample index before multiplying by ns_per_sample. -/
theorem claim_C1_counterexample :
    peak_location cfgC1 wC1 = 1 ∧
    peak_voltage cfgC1 wC1 = 10 ∧
    ampAt cfgC1 wC1 2 = 1 ∧
    (peak_rise_time_fraction * peak_voltage cfgC1 wC1 - ampAt cfgC1 wC1 2) /
      (ampAt cfgC1 wC1 3 - ampAt cfgC1 wC1 2) = 1/3 ∧
    ((2 : ℚ) + 1/3) * (cfgC1.ns_per_sample : ℚ) + cfgC1.time_offset = 14/3 ∧
    signal_time cfgC1 wC1 = 38/3 ∧
    (38/3 : ℚ) ≠ 14/3 := by
  with_unfolding_all decide

/-- Claim C1, amended.  Normal timing case: when the analysis-relative peak
index is nonzero, the peak voltage is nonnegative, and b is the first sample
strictly below 0.4*peakVoltage scanning backward from the peak, the returned
signal time is (analysisWindowStartNs + crossingIndex) * nsPerSample +
timeOffset, where crossingIndex = b + (threshold - amp[b])/(amp[b+1] - amp[b])
is the interpolated fractional sample index; the code adds the analysis
window start (in ns) to the fractional sample index, which the original
claim omits. -/
theorem claim_C1_amended (cfg : AnalysisConfig) (w : List ℚ) (b : ℕ)
    (hrel : peak_location cfg w ≠ 0)
    (hpk : 0 ≤ peak_voltage cfg w)
    (hb : b < peakFullIdx cfg w)
    (hbel : ampAt cfg w b < peak_rise_time_fraction * peak_voltage cfg w)
    (hmin : ∀ j, b < j → j < peakFullIdx cfg w →
      ¬(ampAt cfg w j < peak_rise_time_fraction * peak_voltage cfg w)) :
    signal_time cfg w =
      ((cfg.analysis_window.1 : ℚ) + (b : ℚ) +
        (peak_rise_time_fraction * peak_voltage cfg w - ampAt cfg w b) /
          (ampAt cfg w (b+1) - ampAt cfg w b)) * (cfg.ns_per_sample : ℚ) +
        cfg.time_offset := by
  have halen : 0 < analysisLen cfg :=
    analysisLen_pos_of_loc_ne_zero cfg (amplitudes cfg w) hrel
  have hb2 : b < analysisStart cfg + peak_location cfg w := hb
  have hmin2 : ∀ j, b < j → j < analysisStart cfg + peak_location cfg w →
      ¬((amplitudes cfg w).getD j 0 <
        peak_rise_time_fraction * peak_voltage cfg w) := hmin
  have hnext : peak_rise_time_fraction * peak_voltage cfg w ≤
      ampAt cfg w (b+1) := by
    by_cases hcase : b + 1 < peakFullIdx cfg w
    · exact not_lt.mp (hmin (b+1) (by omega) hcase)
    · have hEq : b + 1 = peakFullIdx cfg w := by
        have := hb
        unfold peakFullIdx at hcase this ⊢
        omega
      have hv : peak_voltage cfg w = ampAt cfg w (peakFullIdx cfg w) :=
        peakVoltOf_eq_ampAt cfg (amplitudes cfg w) halen
      rw [hEq, ← hv]
      have h25 : peak_rise_time_fraction = 2/5 := rfl
      rw [h25]
      linarith
  unfold signal_time signalTimeOf
  rw [signalRawOf_cross cfg (peak_voltage cfg w) (amplitudes cfg w) hrel hb2
    hbel hmin2 hnext]
  rfl

/-- Claim C1, witness: the amended theorem applied to cfgC1/wC1 with b = 2,
where the crossing fraction is 1/3 and the code output equals
(4 + 2 + 1/3) * 2 + 0 = 38/3. -/
theorem claim_C1_witness :
    peak_location cfgC1 wC1 ≠ 0 ∧ signal_time cfgC1 wC1 = 38/3 := by
  refine ⟨by with_unfolding_all decide, ?_⟩
  have h := claim_C1_amended cfgC1 wC1 2 (by with_unfolding_all decide) (by with_unfolding_all decide) (by with_unfolding_all decide)
    (by with_unfolding_all decide)
    (by
      intro j h1 h2
      have h3 : peakFullIdx cfgC1 wC1 = 3 := by with_unfolding_all decide
      rw [h3] at h2
      omega)
  rw [h]
  with_unfolding_all decide

/-- Concrete configuration for claim C2. -/
def cfgC2 : AnalysisConfig :=
  { threshold := 1/100, analysis_window := (0, 8), pedestal_window := (8, 12),
    reverse_polarity := false, ns_per_sample := 2, voltage_scale := 1,
    time_offset := 0 }

/-- Concrete waveform for claim C2: rises monotonically to the peak, never
below 0.4 of the peak before it. -/
def wC2 : List ℚ := [5, 5, 6, 8, 0, 0]

/-- Claim C2, counterexample.  For cfgC2/wC2 the peak is at index 3 with
voltage 8, no sample before it is below the threshold 3.2, yet the code
returns signal time 4, not timeOffset = 0: np.argmax over the all-false
mask returns 0, so the interpolation index is the peak location itself and
np.interp clamps at the left bracketing sample loc-1 = 2, giving
(0 + 2) * 2 + 0 = 4. -/
theorem claim_C2_counterexample :
    peak_location cfgC2 wC2 ≠ 0 ∧
    (∀ j, j < peakFullIdx cfgC2 wC2 →
      ¬(ampAt cfgC2 wC2 j < peak_rise_time_fraction * peak_voltage cfgC2 wC2)) ∧
    signal_time cfgC2 wC2 = 4 ∧
    (4 : ℚ) ≠ cfgC2.time_offset := by
  refine ⟨by with_unfolding_all decide, ?_, by with_unfolding_all decide, by with_unfolding_all decide⟩
  intro j hj
  have h3 : peakFullIdx cfgC2 wC2 = 3 := by with_unfolding_all decide
  rw [h3] at hj
  have : j = 0 ∨ j = 1 ∨ j = 2 := by omega
  rcases this with rfl | rfl | rfl <;> with_unfolding_all decide

/-- Claim C2, amended.  No-crossing case: when the analysis-relative peak
index is nonzero, the peak voltage is strictly positive and no sample before
the peak is strictly below 0.4*peakVoltage, the backward np.argmax over the
all-false mask yields 0, so the interpolation runs at i = loc and np.interp
clamps at its left endpoint; the returned signal time is
(analysisWindowStartNs + loc - 1) * nsPerSample + timeOffset, where loc is
the full-waveform peak index - not timeOffset as the original claim says. -/
theorem claim_C2_amended (cfg : AnalysisConfig) (w : List ℚ)
    (hrel : peak_location cfg w ≠ 0)
    (hpk : 0 < peak_voltage cfg w)
    (hall : ∀ j, j < peakFullIdx cfg w →
      ¬(ampAt cfg w j < peak_rise_time_fraction * peak_voltage cfg w)) :
    signal_time cfg w =
      ((cfg.analysis_window.1 : ℚ) + ((peakFullIdx cfg w - 1 : ℕ) : ℚ)) *
        (cfg.ns_per_sample : ℚ) + cfg.time_offset := by
  have halen : 0 < analysisLen cfg :=
    analysisLen_pos_of_loc_ne_zero cfg (amplitudes cfg w) hrel
  have hv : peak_voltage cfg w = ampAt cfg w (peakFullIdx cfg w) :=
    peakVoltOf_eq_ampAt cfg (amplitudes cfg w) halen
  have hlt : peak_rise_time_fraction * peak_voltage cfg w <
      (amplitudes cfg w).getD (analysisStart cfg + peak_location cfg w) 0 := by
    have h25 : peak_rise_time_fraction = 2/5 := rfl
    have hv2 : (amplitudes cfg w).getD
        (analysisStart cfg + peak_location cfg w) 0 = peak_voltage cfg w :=
      hv.symm
    rw [hv2, h25]
    linarith
  have hall2 : ∀ j, j < analysisStart cfg + peak_location cfg w →
      ¬((amplitudes cfg w).getD j 0 <
        peak_rise_time_fraction * peak_voltage cfg w) := hall
  unfold signal_time signalTimeOf
  rw [signalRawOf_no_cross cfg (peak_voltage cfg w) (amplitudes cfg w) hrel
    hall2 hlt]
  rfl

/-- Claim C2, witness: the amended theorem applied to cfgC2/wC2, where the
full-waveform peak index is 3 and the returned signal time is
(0 + 2) * 2 + 0 = 4. -/
theorem claim_C2_witness :
    peak_location cfgC2 wC2 ≠ 0 ∧ signal_time cfgC2 wC2 = 4 := by
  refine ⟨by with_unfolding_all decide, ?_⟩
  have h := claim_C2_amended cfgC2 wC2 (by with_unfolding_all decide) (by with_unfolding_all decide)
    (by
      intro j hj
      have h3 : peakFullIdx cfgC2 wC2 = 3 := by with_unfolding_all decide
      rw [h3] at hj
      have : j = 0 ∨ j = 1 ∨ j = 2 := by omega
      rcases this with rfl | rfl | rfl <;> with_unfolding_all decide)
  rw [h]
  with_unfolding_all decide

/-- Claim C3: degenerate peak-at-zero case.  When the full-waveform peak
location analysisStart + peakIndex is zero (which forces both the window
start and the relative peak index to be zero), the loop appends the sentinel
0, so the returned signal time is 0 * nsPerSample + timeOffset = timeOffset,
produced as an ordinary result value. -/
theorem claim_C3 (cfg : AnalysisConfig) (w : List ℚ)
    (h : peakFullIdx cfg w = 0) :
    signal_time cfg w = cfg.time_offset := by
  have hrel : peak_location cfg w = 0 := by
    unfold peakFullIdx at h
    omega
  unfold signal_time signalTimeOf
  rw [hrel, signalRawOf_peak_at_zero]
  ring

/-- Concrete configuration for claim C3, with a nonzero time offset. -/
def cfgC3 : AnalysisConfig :=
  { threshold := 1/100, analysis_window := (0, 8), pedestal_window := (8, 12),
    reverse_polarity := false, ns_per_sample := 2, voltage_scale := 1,
    time_offset := 7 }

/-- Concrete waveform for claim C3: maximum at analysis-window index 0. -/
def wC3 : List ℚ := [9, 1, 1, 0, 0, 0]

/-- Claim C3, witness: for cfgC3/wC3 the peak sits at full-waveform index 0
and the signal time equals the time offset 7. -/
theorem claim_C3_witness :
    peakFullIdx cfgC3 wC3 = 0 ∧ signal_time cfgC3 wC3 = cfgC3.time_offset :=
  ⟨by with_unfolding_all decide, claim_C3 cfgC3 wC3 (by with_unfolding_all decide)⟩

/-! ### Claim C6: the peak stage -/

/-- Claim C6: within a nonempty analysis window, the peak index is in range,
attains the maximum corrected amplitude over the window, is the first index
attaining it (all strictly earlier window samples are strictly smaller), the
peak voltage is the corrected amplitude at analysisStart + peakIndex, and
the peak time is analysisWindow.start + (peakIndex + 0.5) * nsPerSample. -/
theorem claim_C6 (cfg : AnalysisConfig) (w : List ℚ) (h : 0 < analysisLen cfg) :
    peak_location cfg w < analysisLen cfg ∧
    (∀ j, j < analysisLen cfg →
      ampAt cfg w (analysisStart cfg + j) ≤ ampAt cfg w (peakFullIdx cfg w)) ∧
    (∀ j, j < peak_location cfg w →
      ampAt cfg w (analysisStart cfg + j) < ampAt cfg w (peakFullIdx cfg w)) ∧
    peak_voltage cfg w = ampAt cfg w (peakFullIdx cfg w) ∧
    peak_time cfg w = (cfg.analysis_window.1 : ℚ) +
      ((peak_location cfg w : ℚ) + 1/2) * (cfg.ns_per_sample : ℚ) := by
  have hv : peakVoltOf cfg (amplitudes cfg w) =
      (amplitudes cfg w).getD
        (analysisStart cfg + peakLocOf cfg (amplitudes cfg w)) 0 :=
    peakVoltOf_eq_ampAt cfg (amplitudes cfg w) h
  refine ⟨peakLocOf_lt cfg (amplitudes cfg w) h, ?_, ?_, hv, rfl⟩
  · intro j hj
    show (amplitudes cfg w).getD (analysisStart cfg + j) 0 ≤
      (amplitudes cfg w).getD
        (analysisStart cfg + peakLocOf cfg (amplitudes cfg w)) 0
    rw [← hv]
    exact le_peakVoltOf cfg (amplitudes cfg w) h hj
  · intro j hj
    show (amplitudes cfg w).getD (analysisStart cfg + j) 0 <
      (amplitudes cfg w).getD
        (analysisStart cfg + peakLocOf cfg (amplitudes cfg w)) 0
    rw [← hv]
    exact getD_lt_peakVoltOf_of_lt_loc cfg (amplitudes cfg w) h hj

/-- Concrete configuration for claim C6. -/
def cfgC6 : AnalysisConfig :=
  { threshold := 1/100, analysis_window := (0, 8), pedestal_window := (8, 12),
    reverse_polarity := false, ns_per_sample := 2, voltage_scale := 1,
    time_offset := 0 }

/-- Concrete waveform for claim C6: a flat-topped pulse with equal maxima at
window indices 1 and 2, to exercise the first-occurrence tie-break. -/
def wC6 : List ℚ := [1, 5, 5, 2, 0, 0]

/-- Claim C6, witness: applied to the flat-topped pulse, the tie resolves to
the lower index 1, the peak voltage is 5 and the peak time is
0 + (1 + 0.5) * 2 = 3. -/
theorem claim_C6_witness :
    0 < analysisLen cfgC6 ∧
    peak_location cfgC6 wC6 = 1 ∧
    peak_location cfgC6 wC6 < analysisLen cfgC6 ∧
    peak_voltage cfgC6 wC6 = ampAt cfgC6 wC6 (peakFullIdx cfgC6 wC6) ∧
    peak_time cfgC6 wC6 = 3 := by
  refine ⟨by with_unfolding_all decide, by with_unfolding_all decide, (claim_C6 cfgC6 wC6 (by with_unfolding_all decide)).1,
    (claim_C6 cfgC6 wC6 (by with_unfolding_all decide)).2.2.2.1, by with_unfolding_all decide⟩

/-! ### Charge-stage lemmas -/

theorem amplitudes_length (cfg : AnalysisConfig) (w : List ℚ) :
    (amplitudes cfg w).length = w.length := by
  unfold amplitudes rawAmplitudes
  by_cases hb : cfg.reverse_polarity <;> simp [hb]

theorem beforePeakFall_iff (amp : List ℚ) (v : ℚ) (pkIdx i : ℕ) :
    beforePeakFall amp v pkIdx i = true ↔
      ∀ j, pkIdx < j → j ≤ i → belowOf amp v j = false := by
  unfold beforePeakFall
  rw [beq_iff_eq, List.countP_eq_zero]
  constructor
  · intro h j h1 h2
    have hj := h j (List.mem_range.mpr (by omega))
    rcases hfb : belowOf amp v j with _ | _
    · rfl
    · exfalso
      apply hj
      simp [hfb, h1]
  · intro h a ha
    have ha2 : a ≤ i := Nat.lt_succ_iff.mp (List.mem_range.mp ha)
    simp only [Bool.and_eq_true, decide_eq_true_eq, not_and]
    intro hpk
    rw [h a hpk ha2]
    simp

theorem afterPeakRise_iff (amp : List ℚ) (v : ℚ) (pkIdx i : ℕ) :
    afterPeakRise amp v pkIdx i = true ↔
      ∀ j, i ≤ j → j < amp.length → j < pkIdx → belowOf amp v j = false := by
  unfold afterPeakRise
  rw [beq_iff_eq, List.countP_eq_zero]
  constructor
  · intro h j h1 h2 h3
    have hj := h j (List.mem_range'_1.mpr (by omega))
    rcases hfb : belowOf amp v j with _ | _
    · rfl
    · exfalso
      apply hj
      simp [hfb, h3]
  · intro h a ha
    have hmem := List.mem_range'_1.mp ha
    simp only [Bool.and_eq_true, decide_eq_true_eq, not_and]
    intro hpk
    rw [h a (by omega) (by omega) hpk]
    simp

theorem regionOf_peak (amp : List ℚ) (v : ℚ) (pkIdx : ℕ) :
    regionOf amp v pkIdx pkIdx = true := by
  unfold regionOf
  rw [Bool.and_eq_true, beforePeakFall_iff, afterPeakRise_iff]
  exact ⟨fun j h1 h2 => by omega, fun j h1 _ h3 => by omega⟩

theorem regionOf_iff (amp : List ℚ) (v : ℚ) {pkIdx : ℕ} (i : ℕ)
    (hpk : pkIdx ≤ amp.length) :
    regionOf amp v pkIdx i = true ↔
      ((∀ j, pkIdx < j → j ≤ i → belowOf amp v j = false) ∧
       (∀ j, i ≤ j → j < pkIdx → belowOf amp v j = false)) := by
  unfold regionOf
  rw [Bool.and_eq_true, beforePeakFall_iff, afterPeakRise_iff]
  constructor
  · rintro ⟨h1, h2⟩
    exact ⟨h1, fun j hj1 hj2 => h2 j hj1 (by omega) hj2⟩
  · rintro ⟨h1, h2⟩
    exact ⟨h1, fun j hj1 _ hj2 => h2 j hj1 hj2⟩

/-- The per-waveform charge as a masked sum over the full waveform, with the
peak index written analysisStart + peakLocation. -/
theorem integrated_charge_eq_sum (cfg : AnalysisConfig) (w : List ℚ) :
    integrated_charge cfg w =
      (((List.range w.length).map (fun k =>
        if regionOf (amplitudes cfg w) (pedestal_sigma_sq cfg w)
            (peakFullIdx cfg w) k
        then ampAt cfg w k else 0)).sum) *
        (cfg.ns_per_sample : ℚ) / impedance := by
  unfold integrated_charge chargeOf
  dsimp only
  rw [amplitudes_length cfg w]
  have hcomm : peak_location cfg w + analysisStart cfg = peakFullIdx cfg w :=
    Nat.add_comm _ _
  simp only [hcomm]
  rfl

theorem below_threshold_iff (cfg : AnalysisConfig) (w : List ℚ) (i : ℕ) :
    below_threshold cfg w i ↔
      belowOf (amplitudes cfg w) (pedestal_sigma_sq cfg w) i = true :=
  (belowOf_iff (amplitudes cfg w) (pedestal_sigma_sq_nonneg cfg w) i).symm

/-- Claim C4: with belowThreshold[i] = amplitude[i] < 3*pedestalSigma (the
genuine real-valued standard deviation), the cumulative-sum mask of the code
selects exactly the contiguous run around the global peak index whose right
boundary is the first below-threshold index after the peak (exclusive) and
whose left boundary is the first below-threshold index before the peak
(exclusive); and the integrated charge is the sum of the amplitudes over
that region times nsPerSample / impedance. -/
theorem claim_C4 (cfg : AnalysisConfig) (w : List ℚ) (i : ℕ)
    (hpk : peakFullIdx cfg w ≤ w.length) :
    (regionOf (amplitudes cfg w) (pedestal_sigma_sq cfg w)
        (peakFullIdx cfg w) i = true ↔
      ((∀ j, peakFullIdx cfg w < j → j ≤ i → ¬ below_threshold cfg w j) ∧
       (∀ j, i ≤ j → j < peakFullIdx cfg w → ¬ below_threshold cfg w j))) ∧
    integrated_charge cfg w =
      (((List.range w.length).map (fun k =>
        if regionOf (amplitudes cfg w) (pedestal_sigma_sq cfg w)
            (peakFullIdx cfg w) k
        then ampAt cfg w k else 0)).sum) *
        (cfg.ns_per_sample : ℚ) / impedance := by
  have hconv : ∀ j, belowOf (amplitudes cfg w) (pedestal_sigma_sq cfg w) j =
      false ↔ ¬ below_threshold cfg w j := by
    intro j
    simp only [below_threshold_iff, Bool.not_eq_true]
  constructor
  · rw [regionOf_iff _ _ i (by rw [amplitudes_length]; exact hpk)]
    constructor
    · rintro ⟨h1, h2⟩
      exact ⟨fun j a b => (hconv j).mp (h1 j a b),
        fun j a b => (hconv j).mp (h2 j a b)⟩
    · rintro ⟨h1, h2⟩
      exact ⟨fun j a b => (hconv j).mpr (h1 j a b),
        fun j a b => (hconv j).mpr (h2 j a b)⟩
  · exact integrated_charge_eq_sum cfg w

/-- Concrete configuration for claim C4. -/
def cfgC4 : AnalysisConfig :=
  { threshold := 1/100, analysis_window := (0, 3), pedestal_window := (3, 7),
    reverse_polarity := false, ns_per_sample := 1, voltage_scale := 1,
    time_offset := 0 }

/-- Concrete waveform for claim C4: pedestal samples [2,-2,2,-2] give
variance 4, so 3*sigma = 6; the region around the peak at index 1 is
indices 1 and 2, and the charge is (9+7)*1/50 = 8/25. -/
def wC4 : List ℚ := [1, 9, 7, 2, -2, 2, -2]

/-- Claim C4, witness: applied at index 2, which lies in the region of
wC4; the charge evaluates to 8/25. -/
theorem claim_C4_witness :
    peakFullIdx cfgC4 wC4 ≤ wC4.length ∧
    ((∀ j, peakFullIdx cfgC4 wC4 < j → j ≤ 2 → ¬ below_threshold cfgC4 wC4 j) ∧
     (∀ j, 2 ≤ j → j < peakFullIdx cfgC4 wC4 → ¬ below_threshold cfgC4 wC4 j)) ∧
    integrated_charge cfgC4 wC4 = 8/25 := by
  refine ⟨by with_unfolding_all decide, ?_, ?_⟩
  · exact ((claim_C4 cfgC4 wC4 2 (by with_unfolding_all decide)).1).mp
      (by with_unfolding_all decide)
  · have h := (claim_C4 cfgC4 wC4 2 (by with_unfolding_all decide)).2
    rw [h]
    with_unfolding_all decide

/-- Claim C9: the integration region always contains the peak sample itself
(the mask conditions only constrain indices strictly after and strictly
before the peak), so the region is never empty and the integrated charge
always includes the peak contribution amplitude[peak] * nsPerSample /
impedance. -/
theorem claim_C9 (cfg : AnalysisConfig) (w : List ℚ)
    (h : peakFullIdx cfg w < w.length) :
    regionOf (amplitudes cfg w) (pedestal_sigma_sq cfg w) (peakFullIdx cfg w)
      (peakFullIdx cfg w) = true ∧
    integrated_charge cfg w =
      ampAt cfg w (peakFullIdx cfg w) * (cfg.ns_per_sample : ℚ) / impedance +
      (((List.range w.length).map (fun k =>
        if k ≠ peakFullIdx cfg w ∧
            regionOf (amplitudes cfg w) (pedestal_sigma_sq cfg w)
              (peakFullIdx cfg w) k = true
        then ampAt cfg w k else 0)).sum) *
        (cfg.ns_per_sample : ℚ) / impedance := by
  refine ⟨regionOf_peak _ _ _, ?_⟩
  rw [integrated_charge_eq_sum]
  simp only [sum_range_map]
  have hsplit : ∀ k,
      (if regionOf (amplitudes cfg w) (pedestal_sigma_sq cfg w)
          (peakFullIdx cfg w) k
        then ampAt cfg w k else 0) =
      (if k = peakFullIdx cfg w then ampAt cfg w (peakFullIdx cfg w) else 0) +
      (if k ≠ peakFullIdx cfg w ∧
          regionOf (amplitudes cfg w) (pedestal_sigma_sq cfg w)
            (peakFullIdx cfg w) k = true
        then ampAt cfg w k else 0) := by
    intro k
    by_cases hk : k = peakFullIdx cfg w
    · subst hk
      simp [regionOf_peak]
    · simp [hk]
  rw [Finset.sum_congr rfl (fun k _ => hsplit k), Finset.sum_add_distrib,
    Finset.sum_ite_eq' (Finset.range w.length) (peakFullIdx cfg w)
      (fun _ => ampAt cfg w (peakFullIdx cfg w))]
  rw [if_pos (Finset.mem_range.mpr h)]
  ring

/-- Concrete configuration for claim C9. -/
def cfgC9 : AnalysisConfig :=
  { threshold := 1/100, analysis_window := (0, 3), pedestal_window := (3, 7),
    reverse_polarity := false, ns_per_sample := 1, voltage_scale := 1,
    time_offset := 0 }

/-- Concrete waveform for claim C9: pedestal variance 9 makes 3*sigma = 9,
so even the peak amplitude 2 is below threshold, yet the region still
contains the peak and the charge is 2/50 = 1/25. -/
def wC9 : List ℚ := [0, 2, 0, 3, -3, 3, -3]

/-- Claim C9, witness: the peak of wC9 is below 3*sigma, the region still
contains it, and the charge equals the peak contribution 1/25. -/
theorem claim_C9_witness :
    peakFullIdx cfgC9 wC9 < wC9.length ∧
    belowOf (amplitudes cfgC9 wC9) (pedestal_sigma_sq cfgC9 wC9)
      (peakFullIdx cfgC9 wC9) = true ∧
    regionOf (amplitudes cfgC9 wC9) (pedestal_sigma_sq cfgC9 wC9)
      (peakFullIdx cfgC9 wC9) (peakFullIdx cfgC9 wC9) = true ∧
    integrated_charge cfgC9 wC9 = 1/25 := by
  refine ⟨by with_unfolding_all decide, by with_unfolding_all decide,
    (claim_C9 cfgC9 wC9 (by with_unfolding_all decide)).1,
    by with_unfolding_all decide⟩

/-! ### Claim C5: charge scaling -/

/-- The waveform transformation of claim C5: scale by c exactly the samples
lying in the integration region (of the unscaled row). -/
def scaleRegionOf (c : ℚ) (amp : List ℚ) (v : ℚ) (pkIdx : ℕ) : List ℚ :=
  (List.range amp.length).map
    (fun i => if regionOf amp v pkIdx i then c * amp.getD i 0 else amp.getD i 0)

theorem scaleRegionOf_length (c : ℚ) (amp : List ℚ) (v : ℚ) (pkIdx : ℕ) :
    (scaleRegionOf c amp v pkIdx).length = amp.length := by
  simp [scaleRegionOf]

theorem scaleRegionOf_getD (c : ℚ) (amp : List ℚ) (v : ℚ) (pkIdx : ℕ) {i : ℕ}
    (h : i < amp.length) :
    (scaleRegionOf c amp v pkIdx).getD i 0 =
      if regionOf amp v pkIdx i then c * amp.getD i 0 else amp.getD i 0 :=
  getD_range_map _ h

theorem getD_eq_zero_of_le {l : List ℚ} {i : ℕ} (h : l.length ≤ i) :
    l.getD i 0 = 0 := by
  rw [List.getD_eq_getElem?_getD, List.getElem?_eq_none (by omega)]
  rfl

/-- A non-peak sample of the integration region is itself not below
threshold: the mask conditions at the sample index include the sample. -/
theorem not_below_of_region (amp : List ℚ) (v : ℚ) {pkIdx i : ℕ}
    (hir : regionOf amp v pkIdx i = true) (hne : i ≠ pkIdx)
    (hi : i < amp.length) : belowOf amp v i = false := by
  unfold regionOf at hir
  rw [Bool.and_eq_true, beforePeakFall_iff, afterPeakRise_iff] at hir
  rcases Nat.lt_or_ge i pkIdx with hlt | hge
  · exact hir.2 i le_rfl hi hlt
  · exact hir.1 i (by omega) le_rfl

theorem belowOf_scaleRegionOf {c : ℚ} (hc : 1 ≤ c) (amp : List ℚ) (v : ℚ)
    (pkIdx : ℕ) {j : ℕ} (hne : j ≠ pkIdx) :
    belowOf (scaleRegionOf c amp v pkIdx) v j = belowOf amp v j := by
  by_cases hj : j < amp.length
  · unfold belowOf
    rw [scaleRegionOf_getD c amp v pkIdx hj]
    by_cases hr : regionOf amp v pkIdx j = true
    · rw [if_pos hr]
      have hnb : belowOf amp v j = false := not_below_of_region amp v hr hne hj
      unfold belowOf at hnb
      simp only [Bool.or_eq_false_iff, decide_eq_false_iff_not, not_lt] at hnb
      obtain ⟨h1, h2⟩ := hnb
      have hA : ¬ (c * amp.getD j 0 < 0) :=
        not_lt.mpr (mul_nonneg (by linarith) h1)
      have hc2 : 1 * (amp.getD j 0)^2 ≤ c^2 * (amp.getD j 0)^2 := by
        apply mul_le_mul_of_nonneg_right _ (sq_nonneg _)
        nlinarith
      have hB : ¬ ((c * amp.getD j 0)^2 < 9 * v) := by
        apply not_lt.mpr
        have hexp : (c * amp.getD j 0)^2 = c^2 * (amp.getD j 0)^2 := by ring
        rw [hexp]
        linarith
      rw [decide_eq_false hA, decide_eq_false hB,
        decide_eq_false (not_lt.mpr h1), decide_eq_false (not_lt.mpr h2)]
    · rw [if_neg hr]
  · have h1 : (scaleRegionOf c amp v pkIdx).getD j 0 = 0 :=
      getD_eq_zero_of_le (by rw [scaleRegionOf_length]; omega)
    have h2 : amp.getD j 0 = 0 := getD_eq_zero_of_le (by omega)
    unfold belowOf
    rw [h1, h2]

theorem regionOf_scaleRegionOf {c : ℚ} (hc : 1 ≤ c) (amp : List ℚ) (v : ℚ)
    (pkIdx i : ℕ) :
    regionOf (scaleRegionOf c amp v pkIdx) v pkIdx i =
      regionOf amp v pkIdx i := by
  have hb : ∀ j, pkIdx < j ∨ j < pkIdx →
      belowOf (scaleRegionOf c amp v pkIdx) v j = belowOf amp v j := by
    intro j hj
    exact belowOf_scaleRegionOf hc amp v pkIdx (by omega)
  unfold regionOf beforePeakFall afterPeakRise
  rw [scaleRegionOf_length]
  have h1 : (List.range (i+1)).countP
      (fun j => decide (pkIdx < j) && belowOf (scaleRegionOf c amp v pkIdx) v j) =
      (List.range (i+1)).countP
      (fun j => decide (pkIdx < j) && belowOf amp v j) := by
    apply List.countP_congr
    intro a _
    by_cases ha : pkIdx < a
    · rw [hb a (Or.inl ha)]
    · simp [ha]
  have h2 : (List.range' i (amp.length - i)).countP
      (fun j => decide (j < pkIdx) && belowOf (scaleRegionOf c amp v pkIdx) v j) =
      (List.range' i (amp.length - i)).countP
      (fun j => decide (j < pkIdx) && belowOf amp v j) := by
    apply List.countP_congr
    intro a _
    by_cases ha : a < pkIdx
    · rw [hb a (Or.inr ha)]
    · simp [ha]
  rw [h1, h2]

/-- Concrete configuration for claim C5. -/
def cfgC5 : AnalysisConfig :=
  { threshold := 1/100, analysis_window := (0, 3), pedestal_window := (3, 7),
    reverse_polarity := false, ns_per_sample := 1, voltage_scale := 1,
    time_offset := 0 }

/-- Concrete waveform for claim C5: region is indices 1 and 2, charge
(9+7)/50 = 8/25. -/
def wC5 : List ℚ := [1, 9, 7, 2, -2, 2, -2]

/-- wC5 with its region samples halved (c = 1/2). -/
def wC5s : List ℚ := [1, 9/2, 7/2, 2, -2, 2, -2]

/-- Claim C5, counterexample.  In wC5 the region around the peak is indices
1 and 2 with 3*sigma = 6; halving the region samples (c = 1/2, giving wC5s)
makes sample 2 fall below threshold, so the region shrinks to the peak alone
and the new charge 9/100 is not (1/2) * (8/25) = 16/100: scaling by
0 < c < 1 does not scale the charge by c. -/
theorem claim_C5_counterexample :
    amplitudes cfgC5 wC5s =
      scaleRegionOf (1/2) (amplitudes cfgC5 wC5) (pedestal_sigma_sq cfgC5 wC5)
        (peakFullIdx cfgC5 wC5) ∧
    pedestal_sigma_sq cfgC5 wC5s = pedestal_sigma_sq cfgC5 wC5 ∧
    peak_location cfgC5 wC5s = peak_location cfgC5 wC5 ∧
    integrated_charge cfgC5 wC5 = 8/25 ∧
    integrated_charge cfgC5 wC5s = 9/100 ∧
    (9/100 : ℚ) ≠ (1/2) * (8/25) := by
  with_unfolding_all decide

/-- Claim C5, amended.  For c ≥ 1 the claim holds at the charge stage:
scaling every sample of the integration region by c (peak index and
pedestal variance held at the charge stage inputs) leaves the region
unchanged - non-peak region samples are at or above the threshold and stay
so after scaling up, and the mask never tests the peak sample - and scales
the integrated charge by exactly c.  For 0 < c < 1 region samples can fall
below the 3*sigma threshold, shrinking the region (counterexample). -/
theorem claim_C5_amended (cfg : AnalysisConfig) (amp : List ℚ) (relLoc : ℕ)
    (v c : ℚ) (hc : 1 ≤ c) :
    chargeOf cfg (scaleRegionOf c amp v (relLoc + analysisStart cfg)) relLoc v =
      c * chargeOf cfg amp relLoc v := by
  unfold chargeOf
  dsimp only
  rw [scaleRegionOf_length]
  have hterm : ∀ i,
      (if regionOf (scaleRegionOf c amp v (relLoc + analysisStart cfg)) v
          (relLoc + analysisStart cfg) i
        then (scaleRegionOf c amp v (relLoc + analysisStart cfg)).getD i 0 else 0) =
      c * (if regionOf amp v (relLoc + analysisStart cfg) i
        then amp.getD i 0 else 0) := by
    intro i
    rw [regionOf_scaleRegionOf hc]
    by_cases hr : regionOf amp v (relLoc + analysisStart cfg) i = true
    · rw [if_pos hr, if_pos hr]
      by_cases hi : i < amp.length
      · rw [scaleRegionOf_getD c amp v _ hi, if_pos hr]
      · rw [getD_eq_zero_of_le (l := scaleRegionOf c amp v
            (relLoc + analysisStart cfg)) (by rw [scaleRegionOf_length]; omega),
          getD_eq_zero_of_le (by omega)]
        ring
    · rw [if_neg hr, if_neg hr]
      ring
  have hmap : (List.range amp.length).map
      (fun i => if regionOf (scaleRegionOf c amp v (relLoc + analysisStart cfg))
          v (relLoc + analysisStart cfg) i
        then (scaleRegionOf c amp v (relLoc + analysisStart cfg)).getD i 0
        else 0) =
      (List.range amp.length).map
      (fun i => c * (if regionOf amp v (relLoc + analysisStart cfg) i
        then amp.getD i 0 else 0)) :=
    List.map_congr_left (fun i _ => hterm i)
  rw [hmap]
  rw [sum_range_map, sum_range_map, ← Finset.mul_sum]
  ring

/-- Claim C5, witness: doubling the region samples of wC5 (c = 2) doubles
the charge at the charge stage; the scaled charge evaluates to 16/25. -/
theorem claim_C5_witness :
    (1 : ℚ) ≤ 2 ∧
    chargeOf cfgC5
      (scaleRegionOf 2 (amplitudes cfgC5 wC5) (pedestal_sigma_sq cfgC5 wC5)
        (peak_location cfgC5 wC5 + analysisStart cfgC5))
      (peak_location cfgC5 wC5) (pedestal_sigma_sq cfgC5 wC5) =
      2 * chargeOf cfgC5 (amplitudes cfgC5 wC5) (peak_location cfgC5 wC5)
        (pedestal_sigma_sq cfgC5 wC5) ∧
    2 * chargeOf cfgC5 (amplitudes cfgC5 wC5) (peak_location cfgC5 wC5)
      (pedestal_sigma_sq cfgC5 wC5) = 16/25 := by
  refine ⟨by norm_num, claim_C5_amended cfgC5 (amplitudes cfgC5 wC5)
    (peak_location cfgC5 wC5) (pedestal_sigma_sq cfgC5 wC5) 2 (by norm_num), ?_⟩
  with_unfolding_all decide

/-! ### Claim C7: the pedestal stage -/

theorem getD_map_of_lt (f : ℚ → ℚ) (l : List ℚ) {i : ℕ} (h : i < l.length) :
    (l.map f).getD i 0 = f (l.getD i 0) := by
  have h2 : i < (l.map f).length := by simpa
  rw [List.getD_eq_getElem _ _ h2, List.getD_eq_getElem _ _ h, List.getElem_map]

/-- The corrected amplitude of an in-range sample, in closed form. -/
theorem ampAt_eq (cfg : AnalysisConfig) (w : List ℚ) {i : ℕ}
    (hi : i < w.length) :
    ampAt cfg w i =
      (if cfg.reverse_polarity
        then -(w.getD i 0 * cfg.voltage_scale - pedestal cfg w)
        else w.getD i 0 * cfg.voltage_scale - pedestal cfg w) := by
  unfold ampAt amplitudes rawAmplitudes
  have h1 : i < (w.map (fun x => x * cfg.voltage_scale)).length := by simpa
  by_cases hb : cfg.reverse_polarity
  · rw [if_pos hb, if_pos hb,
      getD_map_of_lt _ _ (by simpa using hi), getD_map_of_lt _ _ h1,
      getD_map_of_lt _ _ hi]
  · rw [if_neg hb, if_neg hb, getD_map_of_lt _ _ h1, getD_map_of_lt _ _ hi]

/-- Claim C7: the pedestal stage computes amplitude[i] = raw[i]*voltageScale;
the pedestal is the mean over the pedestal bins and the variance the mean of
squared deviations (np.std is its square root, hence nonnegative and a
population standard deviation); the pedestal is subtracted from every
sample and the result negated when reversePolarity is set - so flipping
reversePolarity negates every corrected sample while leaving the pedestal
and sigma unchanged. -/
theorem claim_C7 (cfg : AnalysisConfig) (w : List ℚ) (b : Bool) (i : ℕ)
    (hi : i < w.length) :
    (0 : ℝ) ≤ Real.sqrt ((pedestal_sigma_sq cfg w : ℚ) : ℝ) ∧
    0 ≤ pedestal_sigma_sq cfg w ∧
    pedestal cfg w = (pedSlice cfg w).sum / (pedestalLen cfg : ℚ) ∧
    pedestal_sigma_sq cfg w =
      ((pedSlice cfg w).map (fun x => (x - pedestal cfg w)^2)).sum /
        (pedestalLen cfg : ℚ) ∧
    pedestal { cfg with reverse_polarity := b } w = pedestal cfg w ∧
    pedestal_sigma_sq { cfg with reverse_polarity := b } w =
      pedestal_sigma_sq cfg w ∧
    ampAt { cfg with reverse_polarity := true } w i =
      - ampAt { cfg with reverse_polarity := false } w i ∧
    ampAt cfg w i =
      (if cfg.reverse_polarity
        then -(w.getD i 0 * cfg.voltage_scale - pedestal cfg w)
        else w.getD i 0 * cfg.voltage_scale - pedestal cfg w) := by
  refine ⟨Real.sqrt_nonneg _, pedestal_sigma_sq_nonneg cfg w, rfl, rfl, rfl,
    rfl, ?_, ampAt_eq cfg w hi⟩
  rw [ampAt_eq { cfg with reverse_polarity := true } w hi,
    ampAt_eq { cfg with reverse_polarity := false } w hi]
  simp only [if_true, if_false, Bool.false_eq_true, Bool.true_eq_false, if_neg]
  rfl

/-- Concrete configuration for claim C7 (reverse polarity enabled). -/
def cfgC7 : AnalysisConfig :=
  { threshold := 1/100, analysis_window := (0, 4), pedestal_window := (4, 8),
    reverse_polarity := true, ns_per_sample := 2, voltage_scale := 1,
    time_offset := 0 }

/-- Concrete waveform for claim C7 (pedestal mean 3, variance 1). -/
def wC7 : List ℚ := [7, 1, 2, 4]

/-- Claim C7, witness: at sample 0 of wC7 the corrected amplitude with
reverse polarity is -(7 - 3) = -4, the negation of the
non-reversed amplitude; pedestal 3 and variance 1 are polarity-invariant. -/
theorem claim_C7_witness :
    (0 : ℕ) < wC7.length ∧
    pedestal cfgC7 wC7 = 3 ∧
    pedestal_sigma_sq cfgC7 wC7 = 1 ∧
    ampAt cfgC7 wC7 0 = -4 ∧
    ampAt { cfgC7 with reverse_polarity := true } wC7 0 =
      - ampAt { cfgC7 with reverse_polarity := false } wC7 0 ∧
    pedestal { cfgC7 with reverse_polarity := false } wC7 = pedestal cfgC7 wC7 := by
  refine ⟨by decide, by with_unfolding_all decide, by with_unfolding_all decide,
    by with_unfolding_all decide,
    (claim_C7 cfgC7 wC7 false 0 (by decide)).2.2.2.2.2.2.1,
    (claim_C7 cfgC7 wC7 false 0 (by decide)).2.2.2.2.1⟩

/-! ### Claims C8 and C10: the pipeline orchestrator and stage ordering -/

/-- The documented stage order Pedestal, then Peak, then Timing, then
Charge, starting from a fresh object. -/
def orderedRun (cfg : AnalysisConfig) (ws : List (List ℚ)) : AnalysisState :=
  integrateChargesS (calculateSignalTimesS (findPeaksS (findPedestalsS
    (initState cfg ws))))

/-- Claim C8: the assembled output is a pure function of the batch and the
configuration.  Running run_analysis a second time on the already populated
object recomputes every field from the stored waveforms and configuration
and reproduces the identical state: no hidden mutable state influences a
rerun. -/
theorem claim_C8 (cfg : AnalysisConfig) (ws : List (List ℚ)) :
    runAnalysisS (runAnalysisS (initState cfg ws)) =
      runAnalysisS (initState cfg ws) := by
  rfl

/-- Claim C10: each stage lazily runs any missing earlier stage, so invoking
any single stage on a freshly constructed analysis yields the same
pedestals, sigmas, amplitudes, peaks, signal times and charges as invoking
the stages in the documented order Pedestal, Peak, Timing, Charge. -/
theorem claim_C10 (cfg : AnalysisConfig) (ws : List (List ℚ)) :
    (findPedestalsS (initState cfg ws)).pedestals = (orderedRun cfg ws).pedestals ∧
    (findPedestalsS (initState cfg ws)).pedestal_sigma_sqs =
      (orderedRun cfg ws).pedestal_sigma_sqs ∧
    (findPedestalsS (initState cfg ws)).amplitudes = (orderedRun cfg ws).amplitudes ∧
    (findPeaksS (initState cfg ws)).peak_locations =
      (orderedRun cfg ws).peak_locations ∧
    (findPeaksS (initState cfg ws)).peak_times = (orderedRun cfg ws).peak_times ∧
    (findPeaksS (initState cfg ws)).peak_voltages =
      (orderedRun cfg ws).peak_voltages ∧
    (calculateSignalTimesS (initState cfg ws)).signal_times =
      (orderedRun cfg ws).signal_times ∧
    (integrateChargesS (initState cfg ws)).integrated_charges =
      (orderedRun cfg ws).integrated_charges :=
  ⟨rfl, rfl, rfl, rfl, rfl, rfl, rfl, rfl⟩

end WaveformAnalysis
